import Mathlib

/-!
Verification of the executable-analysis engine of `ssize` (src/main.rs).

The analysis engine (`analyze_executable`, `process_symtab_exec`, `is_tag`,
lines 205-357 of src/main.rs) is embedded shallowly:

* `u64` values (addresses, sizes, stack byte counts) become `Nat`; the only
  bitwise operations the code performs on them are `| 1` and `& !1`, embedded
  as `setLowBit` and `clearLowBit` below.
* `BTreeMap<u64, _>` becomes an association list ordered by key
  (`alFind?` / `alModify` / `alUpdate` model `get`, `get_mut` and
  `entry(k).or_insert(d)` followed by a mutation).
* `HashSet<&str>` becomes a duplicate-free `List String` (`insertSet`).
* A symbol-table entry (`xmas_elf::symbol_table::Entry`) is abstracted to the
  four observations the code makes of it: `get_type`, `value`, `size` and
  `get_name` (where `name = none` models a string-table resolution failure and
  `ty = .other` covers both a `get_type` error and every type other than
  `Func` / `NoType`).
* The ELF container is abstracted to the two section lookups the code
  performs: `ElfModel.symtab` is the result of
  `find_section_by_name(".symtab")` + `get_data` (with `SymtabData.malformed`
  covering both a `get_data` failure and a section-data variant other than
  `SymbolTable32`/`SymbolTable64`), and `ElfModel.stack_sizes` is the raw byte
  contents of `.stack_sizes` (bytes are `Nat`s, `< 256` in well-formed input).
* `anyhow::Result` becomes `Except AErr`; the error constructors record which
  failure site of the Rust code produced them (and nothing else, matching the
  fact that the Rust code attaches no further context on these paths).
* `byteorder`'s `read_u32::<LE>` / `read_u64::<LE>` become `readLE 4` /
  `readLE 8`; the `leb128` crate's `read::unsigned` becomes `readULEB`
  (the crate's additional `Overflow` error for values exceeding 64 bits is
  not modelled; no claim depends on it).
-/

namespace SSize

/-- Embeds the u64 operation `address | 1` (set the least-significant bit). -/
def setLowBit (a : Nat) : Nat := a ||| 1

/-- Embeds the u64 operation `address & !1` (clear the least-significant
bit); on naturals clearing bit 0 is subtraction of `a % 2`. -/
def clearLowBit (a : Nat) : Nat := a - a % 2

/-- `a ||| 1` in arithmetic form, certifying `setLowBit`. -/
theorem lor_one (a : Nat) : a ||| 1 = a + 1 - a % 2 := by
  apply Nat.eq_of_testBit_eq
  intro i
  rw [Nat.testBit_lor]
  cases i with
  | zero =>
    simp only [Nat.testBit_zero]
    have h2 : (a + 1 - a % 2) % 2 = 1 := by omega
    rw [h2]
    simp
  | succ i =>
    simp only [Nat.testBit_succ]
    have h2 : (a + 1 - a % 2) / 2 = a / 2 := by omega
    have h1 : (1 : Nat) / 2 = 0 := rfl
    rw [h2, h1, Nat.zero_testBit, Bool.or_false]

theorem setLowBit_of_even {a : Nat} (h : a % 2 = 0) : setLowBit a = a + 1 := by
  unfold setLowBit
  rw [lor_one]
  omega

theorem setLowBit_of_odd {a : Nat} (h : a % 2 = 1) : setLowBit a = a := by
  unfold setLowBit
  rw [lor_one]
  omega

theorem clearLowBit_of_even {a : Nat} (h : a % 2 = 0) : clearLowBit a = a := by
  unfold clearLowBit
  omega

theorem clearLowBit_of_odd {a : Nat} (h : a % 2 = 1) : clearLowBit a = a - 1 := by
  unfold clearLowBit
  omega

/-- `BTreeMap::get`: first binding of key `k` (bindings are unique for maps
built by `alUpdate` from `[]`). -/
def alFind? {α : Type} : List (Nat × α) → Nat → Option α
  | [], _ => none
  | (k', v) :: rest, k => if k' = k then some v else alFind? rest k

/-- `BTreeMap::get_mut` followed by a mutation `g` of the found value; the
map is unchanged when the key is absent. -/
def alModify {α : Type} : List (Nat × α) → Nat → (α → α) → List (Nat × α)
  | [], _, _ => []
  | (k', v) :: rest, k, g =>
    if k' = k then (k', g v) :: rest else (k', v) :: alModify rest k g

/-- Insertion of a fresh binding at its key-ordered position (matching
`BTreeMap` iteration order for the maps this development builds, which
grow from `[]` and therefore stay sorted). -/
def alInsert {α : Type} : List (Nat × α) → Nat → α → List (Nat × α)
  | [], k, v => [(k, v)]
  | (k', v') :: rest, k, v =>
    if k < k' then (k, v) :: (k', v') :: rest else (k', v') :: alInsert rest k v

/-- `BTreeMap::entry(k).or_insert(d)` followed by a mutation `g` of the
resulting value: mutate the binding if the key is present, otherwise
insert `g d`. -/
def alUpdate {α : Type} (m : List (Nat × α)) (k : Nat) (d : α) (g : α → α) :
    List (Nat × α) :=
  if (alFind? m k).isSome then alModify m k g else alInsert m k (g d)

theorem alModify_find?_self {α : Type} {m : List (Nat × α)} {k : Nat} {f : α} {g : α → α}
    (h : alFind? m k = some f) : alFind? (alModify m k g) k = some (g f) := by
  induction m with
  | nil => simp [alFind?] at h
  | cons p rest ih =>
    obtain ⟨k', v⟩ := p
    by_cases hk : k' = k
    · subst hk
      simp [alFind?] at h
      simp [alModify, alFind?, h]
    · simp [alFind?, hk] at h
      simp [alModify, alFind?, hk, ih h]

theorem alModify_find?_ne {α : Type} {m : List (Nat × α)} {k k' : Nat} {g : α → α}
    (h : k' ≠ k) : alFind? (alModify m k g) k' = alFind? m k' := by
  induction m with
  | nil => simp [alModify]
  | cons p rest ih =>
    obtain ⟨k'', v⟩ := p
    by_cases hk : k'' = k
    · subst hk
      have : k'' ≠ k' := fun he => h (he ▸ rfl)
      simp [alModify, alFind?, this]
    · simp [alModify, hk, alFind?]
      split
      · rfl
      · exact ih

theorem alModify_isSome {α : Type} (m : List (Nat × α)) (k k' : Nat) (g : α → α) :
    (alFind? (alModify m k g) k').isSome = (alFind? m k').isSome := by
  by_cases h : k' = k
  · subst h
    cases hf : alFind? m k' with
    | none =>
      have : alFind? (alModify m k' g) k' = none := by
        induction m with
        | nil => simp [alModify, alFind?]
        | cons p rest ih =>
          obtain ⟨k'', v⟩ := p
          by_cases hk : k'' = k'
          · subst hk; simp [alFind?] at hf
          · simp [alFind?, hk] at hf
            simp [alModify, alFind?, hk, ih hf]
      simp [this, hf]
    | some f => simp [alModify_find?_self hf, hf]
  · rw [alModify_find?_ne h]

theorem alInsert_find?_self {α : Type} {m : List (Nat × α)} {k : Nat} (v : α)
    (h : alFind? m k = none) : alFind? (alInsert m k v) k = some v := by
  induction m with
  | nil => simp [alInsert, alFind?]
  | cons p rest ih =>
    obtain ⟨k', v'⟩ := p
    by_cases hk : k' = k
    · subst hk; simp [alFind?] at h
    · simp only [alFind?, hk, if_false] at h
      simp only [alInsert]
      split
      · simp [alFind?]
      · simp [alFind?, hk, ih h]

theorem alInsert_find?_ne {α : Type} (m : List (Nat × α)) {k k' : Nat} (v : α)
    (h : k' ≠ k) : alFind? (alInsert m k v) k' = alFind? m k' := by
  have hkk : k ≠ k' := fun he => h (he ▸ rfl)
  induction m with
  | nil => simp [alInsert, alFind?, hkk]
  | cons p rest ih =>
    obtain ⟨k'', v'⟩ := p
    simp only [alInsert]
    split
    · simp [alFind?, hkk]
    · by_cases hk2 : k'' = k'
      · simp [alFind?, hk2]
      · simp [alFind?, hk2, ih]

theorem alUpdate_find?_self {α : Type} (m : List (Nat × α)) (k : Nat) (d : α) (g : α → α) :
    alFind? (alUpdate m k d g) k = some (g ((alFind? m k).getD d)) := by
  unfold alUpdate
  cases hf : alFind? m k with
  | none => simp [hf, alInsert_find?_self (g d) hf]
  | some f => simp [hf, alModify_find?_self hf]

theorem alUpdate_find?_ne {α : Type} (m : List (Nat × α)) {k k' : Nat} (d : α) (g : α → α)
    (h : k' ≠ k) : alFind? (alUpdate m k d g) k' = alFind? m k' := by
  unfold alUpdate
  split
  · exact alModify_find?_ne h
  · exact alInsert_find?_ne m (g d) h

/-- One physical function of the executable (struct `Function`,
src/main.rs lines 221-226). -/
structure Function where
  names : List String
  size : Nat
  stack : Option Nat
deriving DecidableEq

/-- The outcome of `entry.get_type()` as the code distinguishes it:
`Ok(Type::Func)`, `Ok(Type::NoType)`, or anything else (including a
`get_type` error). -/
inductive SymType where
  | func
  | noType
  | other
deriving DecidableEq

/-- A symbol-table entry, abstracted to the observations
`process_symtab_exec` makes of it; `name = none` models a failing
`entry.get_name(&elf)`. -/
structure SymEntry where
  ty : SymType
  value : Nat
  size : Nat
  name : Option String
deriving DecidableEq

/-- The failure sites of the analysis.  The Rust code surfaces them as
`anyhow::Error` values carrying exactly the information listed here:
`malformedSymtab` is `bail!("malformed .symtab section")` (also covering a
failing `get_data`), `nameResolution` a failing `get_name` on a `Func`
entry, `readEof` an end-of-input from `read_u32`/`read_u64`, and `lebEof`
an end-of-input inside `leb128::read::unsigned`. -/
inductive AErr where
  | malformedSymtab
  | nameResolution
  | readEof
  | lebEof
deriving DecidableEq

/-- Character-level prefix test (Rust `str::starts_with` on ASCII
patterns). -/
def lcPrefix : List Char → List Char → Bool
  | [], _ => true
  | _ :: _, [] => false
  | p :: ps, c :: cs => p == c && lcPrefix ps cs

/-- Decimal digit test used by Rust's `u64` parsing (`'0'..='9'`). -/
def isDigitChar (c : Char) : Bool := 48 ≤ c.toNat && c.toNat ≤ 57

/-- Embeds `str::parse::<u64>()::is_ok()`-relevant behaviour: an optional
leading `+`, then one or more decimal digits whose value fits in 64 bits. -/
def parseU64 (s : List Char) : Option Nat :=
  let t := if lcPrefix "+".data s then s.drop 1 else s
  if t.length = 0 then none
  else if t.all isDigitChar then
    let v := t.foldl (fun acc c => acc * 10 + (c.toNat - 48)) 0
    if v < 2 ^ 64 then some v else none
  else none

/-- `is_tag` (src/main.rs lines 246-251).  `name.splitn(2, '.').nth(1)` is
everything after the first `'.'`, which under the `starts_with("$x.")`
guard is `name` without its first three characters. -/
def is_tag (name : String) : Bool :=
  name == "$a" || name == "$t" || name == "$d" ||
    ((lcPrefix "$a.".data name.data || lcPrefix "$d.".data name.data ||
        lcPrefix "$t.".data name.data) &&
      (parseU64 (name.data.drop 3)).isSome)

/-- `HashSet::insert` (only membership is observable downstream). -/
def insertSet (s : List String) (n : String) : List String :=
  if n ∈ s then s else s ++ [n]

/-- The mutable state of the entry loop of `process_symtab_exec`
(src/main.rs lines 312-314). -/
structure SState where
  undefined : List String
  defined : List (Nat × Function)
  maybe_aliases : List (Nat × List String)
deriving DecidableEq

/-- The `defined` update of a `Func` entry (src/main.rs lines 328-336):
`defined.entry(value).or_insert(Function { names: vec![], size, stack: None }).names.push(name)`. -/
def funcUpdate (d : List (Nat × Function)) (value size : Nat) (n : String) :
    List (Nat × Function) :=
  alUpdate d value ⟨[], size, none⟩ (fun f => { f with names := f.names ++ [n] })

/-- The `maybe_aliases` update of a non-tag `NoType` entry (src/main.rs
line 341): `maybe_aliases.entry(value).or_insert(vec![]).push(name)`. -/
def aliasUpdate (ma : List (Nat × List String)) (value : Nat) (n : String) :
    List (Nat × List String) :=
  alUpdate ma value [] (fun ns => ns ++ [n])

/-- One iteration of the entry loop of `process_symtab_exec`
(src/main.rs lines 316-345). -/
def processEntry (st : SState) (e : SymEntry) : Except AErr SState :=
  match e.ty with
  | SymType.func =>
    match e.name with
    | none => Except.error AErr.nameResolution
    | some n =>
      if e.value = 0 ∧ e.size = 0 then
        Except.ok { st with undefined := insertSet st.undefined n }
      else
        Except.ok { st with defined := funcUpdate st.defined e.value e.size n }
  | SymType.noType =>
    match e.name with
    | none => Except.ok st
    | some n =>
      if is_tag n then Except.ok st
      else
        Except.ok { st with maybe_aliases := aliasUpdate st.maybe_aliases e.value n }
  | SymType.other => Except.ok st

/-- The entry loop of `process_symtab_exec`, with the `?` on `get_name`
propagating the first error. -/
def processEntries : SState → List SymEntry → Except AErr SState
  | st, [] => Except.ok st
  | st, e :: es =>
    match processEntry st e with
    | Except.error er => Except.error er
    | Except.ok st' => processEntries st' es

/-- One iteration of the alias loop of `process_symtab_exec`
(src/main.rs lines 347-354): try the address with the thumb bit set, then
clear, and extend the names of the matched function. -/
def aliasStep (defined : List (Nat × Function)) (p : Nat × List String) :
    List (Nat × Function) :=
  if (alFind? defined (setLowBit p.1)).isSome then
    alModify defined (setLowBit p.1) (fun f => { f with names := f.names ++ p.2 })
  else if (alFind? defined (clearLowBit p.1)).isSome then
    alModify defined (clearLowBit p.1) (fun f => { f with names := f.names ++ p.2 })
  else defined

/-- `process_symtab_exec` (src/main.rs lines 305-357). -/
def process_symtab_exec (entries : List SymEntry) :
    Except AErr (List String × List (Nat × Function)) :=
  match processEntries ⟨[], [], []⟩ entries with
  | Except.error er => Except.error er
  | Except.ok st => Except.ok (st.undefined, st.maybe_aliases.foldl aliasStep st.defined)

/-- The result of `find_section_by_name(".symtab")` + `get_data`:
a 32-bit entry table, a 64-bit entry table, or anything else (the `_`
match arm / a `get_data` failure), which the code treats as malformed. -/
inductive SymtabData where
  | table32 (entries : List SymEntry)
  | table64 (entries : List SymEntry)
  | malformed
deriving DecidableEq

/-- An ELF executable abstracted to the two section lookups
`analyze_executable` performs. -/
structure ElfModel where
  symtab : Option SymtabData
  stack_sizes : Option (List Nat)
deriving DecidableEq

/-- The result record `Functions` (src/main.rs lines 209-218). -/
structure Functions where
  have_32_bit_addresses : Bool
  undefined : List String
  defined : List (Nat × Function)
deriving DecidableEq

/-- `byteorder` fixed-width little-endian read of `n` bytes (`read_u32`
for `n = 4`, `read_u64` for `n = 8`); `none` is the end-of-input error. -/
def readLE : Nat → List Nat → Option (Nat × List Nat)
  | 0, data => some (0, data)
  | _ + 1, [] => none
  | n + 1, b :: rest => (readLE n rest).map (fun p => (b + 256 * p.1, p.2))

/-- `leb128::read::unsigned`: accumulate 7 payload bits per byte
(`b & !0x80 = b % 128`, shifted into place) until a byte without the
continuation bit; `none` is the end-of-input error. -/
def readULEB : List Nat → Nat → Nat → Option (Nat × List Nat)
  | [], _, _ => none
  | b :: rest, shift, acc =>
    if b < 128 then some (acc ||| ((b % 128) <<< shift), rest)
    else readULEB rest (shift + 7) (acc ||| ((b % 128) <<< shift))

theorem readLE_length {n : Nat} {data r : List Nat} {v : Nat}
    (h : readLE n data = some (v, r)) : r.length + n = data.length := by
  induction n generalizing data v r with
  | zero =>
    simp only [readLE, Option.some.injEq, Prod.mk.injEq] at h
    simp [h.2]
  | succ n ih =>
    match data with
    | [] => simp [readLE] at h
    | b :: rest =>
      simp only [readLE, Option.map_eq_some'] at h
      obtain ⟨⟨v', r'⟩, hr, hv⟩ := h
      have hlen := ih hr
      have hr2 : r' = r := (Prod.mk.injEq _ _ _ _ ▸ hv).2
      subst hr2
      simp only [List.length_cons]
      omega

theorem readULEB_length {data r : List Nat} {s a v : Nat}
    (h : readULEB data s a = some (v, r)) : r.length < data.length := by
  induction data generalizing s a v r with
  | nil => simp [readULEB] at h
  | cons b rest ih =>
    simp only [readULEB] at h
    split at h
    · have hr : rest = r := (Prod.mk.injEq _ _ _ _ ▸ (Option.some.injEq _ _ ▸ h)).2
      subst hr
      simp
    · have := ih h
      simp only [List.length_cons]
      omega

/-- The correlation performed for one decoded `(address, stack)` record
(src/main.rs lines 286-294): try the thumb bit set, then clear, assign
`stack` on the first hit, discard on no hit. -/
def correlateOne (defined : List (Nat × Function)) (address stack : Nat) :
    List (Nat × Function) :=
  if (alFind? defined (setLowBit address)).isSome then
    alModify defined (setLowBit address) (fun f => { f with stack := some stack })
  else if (alFind? defined (clearLowBit address)).isSome then
    alModify defined (clearLowBit address) (fun f => { f with stack := some stack })
  else defined

/-- Address width in bytes, from `have_32_bit_addresses`. -/
def addrWidth (have32 : Bool) : Nat := if have32 then 4 else 8

/-- The `.stack_sizes` cursor loop (src/main.rs lines 278-295): while
bytes remain, read a fixed-width little-endian address, a ULEB128 stack
value, correlate, and continue on the remaining bytes. -/
def stackLoop (have32 : Bool) (defined : List (Nat × Function)) (data : List Nat) :
    Except AErr (List (Nat × Function)) :=
  match data with
  | [] => Except.ok defined
  | b :: rest =>
    match h1 : readLE (addrWidth have32) (b :: rest) with
    | none => Except.error AErr.readEof
    | some (address, r1) =>
      match h2 : readULEB r1 0 0 with
      | none => Except.error AErr.lebEof
      | some (stack, r2) => stackLoop have32 (correlateOne defined address stack) r2
termination_by data.length
decreasing_by
  simp only [List.length_cons]
  have e1 := readLE_length h1
  have e2 := readULEB_length h2
  have e3 : 0 < addrWidth have32 := by unfold addrWidth; split <;> omega
  simp only [List.length_cons] at e1
  omega

/-- The pure decoding part of the cursor loop: the ordered sequence of
`(address, stack)` records of a `.stack_sizes` byte stream (decoding does
not depend on the catalog, so the interleaved loop factors through it;
see `stackLoop_eq_decodeAll`). -/
def decodeAll (have32 : Bool) (data : List Nat) : Except AErr (List (Nat × Nat)) :=
  match data with
  | [] => Except.ok []
  | b :: rest =>
    match h1 : readLE (addrWidth have32) (b :: rest) with
    | none => Except.error AErr.readEof
    | some (address, r1) =>
      match h2 : readULEB r1 0 0 with
      | none => Except.error AErr.lebEof
      | some (stack, r2) =>
        match decodeAll have32 r2 with
        | Except.error er => Except.error er
        | Except.ok recs => Except.ok ((address, stack) :: recs)
termination_by data.length
decreasing_by
  simp only [List.length_cons]
  have e1 := readLE_length h1
  have e2 := readULEB_length h2
  have e3 : 0 < addrWidth have32 := by unfold addrWidth; split <;> omega
  simp only [List.length_cons] at e1
  omega

/-- The symbol-table phase of `analyze_executable` (src/main.rs lines
257-271): `have_32_bit_addresses` starts `false` and is set only by the
`SymbolTable32` arm; an absent `.symtab` yields empty catalogs. -/
def symtabPhase (elf : ElfModel) :
    Except AErr (Bool × List String × List (Nat × Function)) :=
  match elf.symtab with
  | none => Except.ok (false, [], [])
  | some (SymtabData.table32 es) =>
    match process_symtab_exec es with
    | Except.error er => Except.error er
    | Except.ok r => Except.ok (true, r.1, r.2)
  | some (SymtabData.table64 es) =>
    match process_symtab_exec es with
    | Except.error er => Except.error er
    | Except.ok r => Except.ok (false, r.1, r.2)
  | some SymtabData.malformed => Except.error AErr.malformedSymtab

/-- `analyze_executable` (src/main.rs lines 254-303), starting from the
parsed ELF container. -/
def analyze_executable (elf : ElfModel) : Except AErr Functions :=
  match symtabPhase elf with
  | Except.error er => Except.error er
  | Except.ok (have32, undefined, defined) =>
    match elf.stack_sizes with
    | none => Except.ok ⟨have32, undefined, defined⟩
    | some data =>
      match stackLoop have32 defined data with
      | Except.error er => Except.error er
      | Except.ok defined' => Except.ok ⟨have32, undefined, defined'⟩

/-- Whether the record address `a`, resolved with the two-variant
tolerance against the key set of `defined`, lands on key `k`. -/
def hitKey (defined : List (Nat × Function)) (a k : Nat) : Bool :=
  if (alFind? defined (setLowBit a)).isSome then setLowBit a == k
  else if (alFind? defined (clearLowBit a)).isSome then clearLowBit a == k
  else false

/-- The stack value of the last record of `recs` that lands on key `k`
(`acc` if none does). -/
def lastMatch (defined : List (Nat × Function)) (k : Nat) (recs : List (Nat × Nat))
    (acc : Option Nat) : Option Nat :=
  recs.foldl (fun acc r => if hitKey defined r.1 k then some r.2 else acc) acc

theorem stackLoop_cons (have32 : Bool) (d : List (Nat × Function)) (b : Nat)
    (rest : List Nat) :
    stackLoop have32 d (b :: rest) =
      match readLE (addrWidth have32) (b :: rest) with
      | none => Except.error AErr.readEof
      | some (address, r1) =>
        match readULEB r1 0 0 with
        | none => Except.error AErr.lebEof
        | some (stack, r2) => stackLoop have32 (correlateOne d address stack) r2 := by
  rw [stackLoop.eq_def]
  split
  · next heq => simp at heq
  · next b' rest' heq =>
    injection heq with hb hr
    subst hb
    subst hr
    split
    · next hre => simp [hre]
    · next address r1 hre =>
      rw [hre]
      split
      · next hu => simp [hu]
      · next stack r2 hu => simp [hu]

theorem decodeAll_cons (have32 : Bool) (b : Nat) (rest : List Nat) :
    decodeAll have32 (b :: rest) =
      match readLE (addrWidth have32) (b :: rest) with
      | none => Except.error AErr.readEof
      | some (address, r1) =>
        match readULEB r1 0 0 with
        | none => Except.error AErr.lebEof
        | some (stack, r2) =>
          match decodeAll have32 r2 with
          | Except.error er => Except.error er
          | Except.ok recs => Except.ok ((address, stack) :: recs) := by
  rw [decodeAll.eq_def]
  split
  · next heq => simp at heq
  · next b' rest' heq =>
    injection heq with hb hr
    subst hb
    subst hr
    split
    · next hre => simp [hre]
    · next address r1 hre =>
      rw [hre]
      split
      · next hu => simp [hu]
      · next stack r2 hu => simp [hu]

theorem correlateOne_of_none {d : List (Nat × Function)} {a : Nat} (s : Nat)
    (h1 : alFind? d (setLowBit a) = none) (h2 : alFind? d (clearLowBit a) = none) :
    correlateOne d a s = d := by
  unfold correlateOne
  simp [h1, h2]

theorem correlateOne_isSome (d : List (Nat × Function)) (a s k : Nat) :
    (alFind? (correlateOne d a s) k).isSome = (alFind? d k).isSome := by
  unfold correlateOne
  split
  · exact alModify_isSome d (setLowBit a) k _
  · split
    · exact alModify_isSome d (clearLowBit a) k _
    · rfl

theorem hitKey_correlateOne (d : List (Nat × Function)) (a' s' a k : Nat) :
    hitKey (correlateOne d a' s') a k = hitKey d a k := by
  unfold hitKey
  rw [correlateOne_isSome, correlateOne_isSome]

theorem lastMatch_correlateOne (d : List (Nat × Function)) (a' s' k : Nat)
    (recs : List (Nat × Nat)) (acc : Option Nat) :
    lastMatch (correlateOne d a' s') k recs acc = lastMatch d k recs acc := by
  induction recs generalizing acc with
  | nil => rfl
  | cons r rest ih =>
    simp only [lastMatch, List.foldl_cons] at *
    rw [hitKey_correlateOne]
    exact ih _

/-- Effect of correlating one record on the binding at key `k`: the stack
field becomes `some r.2` exactly when the record lands on `k`. -/
theorem correlateOne_find?_step (d : List (Nat × Function)) (r : Nat × Nat) {k : Nat}
    {f : Function} (h : alFind? d k = some f) :
    alFind? (correlateOne d r.1 r.2) k =
      some (if hitKey d r.1 k then ⟨f.names, f.size, some r.2⟩ else f) := by
  by_cases hset : (alFind? d (setLowBit r.1)).isSome
  · by_cases hk : setLowBit r.1 = k
    · have hhit : hitKey d r.1 k = true := by
        unfold hitKey
        rw [hk]
        simp [h]
      rw [hhit]
      subst hk
      unfold correlateOne
      simp only [hset, if_true]
      rw [alModify_find?_self h]
    · have hhit : hitKey d r.1 k = false := by simp [hitKey, hset, hk]
      rw [hhit]
      unfold correlateOne
      simp only [hset, if_true]
      rw [alModify_find?_ne (fun he => hk he.symm), h]
      simp
  · have hset' : alFind? d (setLowBit r.1) = none := by
      cases hx : alFind? d (setLowBit r.1)
      · rfl
      · simp [hx] at hset
    by_cases hclear : (alFind? d (clearLowBit r.1)).isSome
    · by_cases hk : clearLowBit r.1 = k
      · have hhit : hitKey d r.1 k = true := by
          unfold hitKey
          rw [hset', hk]
          simp [h]
        rw [hhit]
        subst hk
        unfold correlateOne
        simp only [hset', Option.isSome_none, Bool.false_eq_true, if_false, hclear, if_true]
        rw [alModify_find?_self h]
      · have hhit : hitKey d r.1 k = false := by simp [hitKey, hset, hclear, hk]
        rw [hhit]
        unfold correlateOne
        simp only [hset', Option.isSome_none, Bool.false_eq_true, if_false, hclear, if_true]
        rw [alModify_find?_ne (fun he => hk he.symm), h]
    · have hclear' : alFind? d (clearLowBit r.1) = none := by
        cases hx : alFind? d (clearLowBit r.1)
        · rfl
        · simp [hx] at hclear
      have hhit : hitKey d r.1 k = false := by simp [hitKey, hset, hclear]
      rw [hhit, correlateOne_of_none r.2 hset' hclear', h]
      simp

/-- Folding the correlator over a record list: the binding at `k` keeps its
names and size, and its stack field ends as the value of the last record
that lands on `k` (unchanged if none does). -/
theorem correlate_foldl (recs : List (Nat × Nat)) :
    ∀ (d : List (Nat × Function)) (k : Nat) (f : Function), alFind? d k = some f →
      alFind? (recs.foldl (fun d r => correlateOne d r.1 r.2) d) k =
        some ⟨f.names, f.size, lastMatch d k recs f.stack⟩ := by
  induction recs with
  | nil =>
    intro d k f h
    simpa [lastMatch] using h
  | cons r rest ih =>
    intro d k f h
    simp only [List.foldl_cons]
    by_cases hhit : hitKey d r.1 k = true
    · have hstep : alFind? (correlateOne d r.1 r.2) k = some ⟨f.names, f.size, some r.2⟩ := by
        rw [correlateOne_find?_step d r h]
        simp [hhit]
      have hrec := ih (correlateOne d r.1 r.2) k _ hstep
      rw [hrec, lastMatch_correlateOne]
      have hlm : lastMatch d k (r :: rest) f.stack = lastMatch d k rest (some r.2) := by
        simp [lastMatch, List.foldl_cons, hhit]
      rw [hlm]
    · have hstep : alFind? (correlateOne d r.1 r.2) k = some f := by
        rw [correlateOne_find?_step d r h]
        simp [hhit]
      have hrec := ih (correlateOne d r.1 r.2) k _ hstep
      rw [hrec, lastMatch_correlateOne]
      have hlm : lastMatch d k (r :: rest) f.stack = lastMatch d k rest f.stack := by
        simp [lastMatch, List.foldl_cons, hhit]
      rw [hlm]

theorem readLE_append {n : Nat} {xs r : List Nat} {v : Nat}
    (h : readLE n xs = some (v, r)) (ys : List Nat) :
    readLE n (xs ++ ys) = some (v, r ++ ys) := by
  induction n generalizing xs v r with
  | zero =>
    simp only [readLE, Option.some.injEq, Prod.mk.injEq] at h
    obtain ⟨hv, hr⟩ := h
    subst hv
    subst hr
    rfl
  | succ n ih =>
    cases xs with
    | nil => simp [readLE] at h
    | cons b rest =>
      simp only [readLE] at h
      cases hp : readLE n rest with
      | none => rw [hp] at h; cases h
      | some p =>
        obtain ⟨v', r'⟩ := p
        rw [hp] at h
        simp only [Option.map_some', Option.some.injEq, Prod.mk.injEq] at h
        obtain ⟨hv, hr⟩ := h
        subst hv
        subst hr
        simp only [List.cons_append, readLE, List.append_eq, ih hp, Option.map_some']

theorem readULEB_append {xs r : List Nat} {s a v : Nat}
    (h : readULEB xs s a = some (v, r)) (ys : List Nat) :
    readULEB (xs ++ ys) s a = some (v, r ++ ys) := by
  induction xs generalizing s a v r with
  | nil => simp [readULEB] at h
  | cons b rest ih =>
    simp only [readULEB] at h ⊢
    split at h
    · next hb =>
      simp only [Option.some.injEq, Prod.mk.injEq] at h
      obtain ⟨hv, hr⟩ := h
      subst hv
      subst hr
      simp [List.cons_append, readULEB, hb]
    · next hb =>
      simp [List.cons_append, readULEB, hb, ih h]

theorem stackLoop_eq_decodeAll_aux (have32 : Bool) :
    ∀ (n : Nat) (data : List Nat), data.length ≤ n → ∀ (d : List (Nat × Function)),
      stackLoop have32 d data =
        (match decodeAll have32 data with
          | Except.error er => Except.error er
          | Except.ok recs => Except.ok (recs.foldl (fun d r => correlateOne d r.1 r.2) d)) := by
  intro n
  induction n with
  | zero =>
    intro data hlen d
    have hdata : data = [] := List.length_eq_zero.mp (Nat.le_zero.mp hlen)
    subst hdata
    simp [stackLoop, decodeAll]
  | succ n ih =>
    intro data hlen d
    cases data with
    | nil => simp [stackLoop, decodeAll]
    | cons b rest =>
      rw [stackLoop_cons, decodeAll_cons]
      cases hre : readLE (addrWidth have32) (b :: rest) with
      | none => simp [hre]
      | some p =>
        obtain ⟨address, r1⟩ := p
        cases hu : readULEB r1 0 0 with
        | none => simp [hre, hu]
        | some q =>
          obtain ⟨stack, r2⟩ := q
          have hr2 : r2.length ≤ n := by
            have e1 := readLE_length hre
            have e2 := readULEB_length hu
            have e3 : 0 < addrWidth have32 := by unfold addrWidth; split <;> omega
            simp only [List.length_cons] at e1 hlen
            omega
          simp only [hre, hu]
          rw [ih r2 hr2 (correlateOne d address stack)]
          cases hd : decodeAll have32 r2 with
          | error er => simp [hd]
          | ok recs => simp [hd, List.foldl_cons]

/-- The interleaved decode-and-correlate loop factors through pure
decoding followed by a fold of the correlator. -/
theorem stackLoop_eq_decodeAll (have32 : Bool) (data : List Nat)
    (d : List (Nat × Function)) :
    stackLoop have32 d data =
      (match decodeAll have32 data with
        | Except.error er => Except.error er
        | Except.ok recs => Except.ok (recs.foldl (fun d r => correlateOne d r.1 r.2) d)) :=
  stackLoop_eq_decodeAll_aux have32 data.length data (Nat.le_refl _) d

theorem stackLoop_append_aux (have32 : Bool) :
    ∀ (n : Nat) (pre : List Nat), pre.length ≤ n →
      ∀ (recs : List (Nat × Nat)) (tail : List Nat) (d : List (Nat × Function)),
        decodeAll have32 pre = Except.ok recs →
        stackLoop have32 d (pre ++ tail) =
          stackLoop have32 (recs.foldl (fun d r => correlateOne d r.1 r.2) d) tail := by
  intro n
  induction n with
  | zero =>
    intro pre hlen recs tail d h
    have hpre : pre = [] := List.length_eq_zero.mp (Nat.le_zero.mp hlen)
    subst hpre
    simp only [decodeAll, Except.ok.injEq] at h
    subst h
    rfl
  | succ n ih =>
    intro pre hlen recs tail d h
    cases pre with
    | nil =>
      simp only [decodeAll, Except.ok.injEq] at h
      subst h
      rfl
    | cons b rest =>
      rw [decodeAll_cons] at h
      split at h
      · cases h
      · next address r1 hre =>
        split at h
        · cases h
        · next stack r2 hu =>
          split at h
          · cases h
          · next recs' hd =>
            injection h with hrecs
            subst hrecs
            have hr2 : r2.length ≤ n := by
              have e1 := readLE_length hre
              have e2 := readULEB_length hu
              have e3 : 0 < addrWidth have32 := by unfold addrWidth; split <;> omega
              simp only [List.length_cons] at e1 hlen
              omega
            rw [List.cons_append, stackLoop_cons]
            have hre' : readLE (addrWidth have32) (b :: (rest ++ tail)) =
                some (address, r1 ++ tail) := by
              have happ := readLE_append hre tail
              rwa [List.cons_append] at happ
            have hu' := readULEB_append hu tail
            simp only [hre', hu']
            rw [ih r2 hr2 recs' tail (correlateOne d address stack) hd]
            simp [List.foldl_cons]

/-- `stackLoop` on well-formed records followed by a truncated final
record: the loop aborts with the end-of-input error of whichever read
hit the end. -/
theorem stackLoop_truncated (have32 : Bool) (d : List (Nat × Function)) (b : Nat)
    (rest : List Nat)
    (h : readLE (addrWidth have32) (b :: rest) = none ∨
      ∃ a r1, readLE (addrWidth have32) (b :: rest) = some (a, r1) ∧
        readULEB r1 0 0 = none) :
    stackLoop have32 d (b :: rest) = Except.error AErr.readEof ∨
      stackLoop have32 d (b :: rest) = Except.error AErr.lebEof := by
  rw [stackLoop_cons]
  rcases h with h | ⟨a, r1, h1, h2⟩
  · rw [h]
    exact Or.inl rfl
  · right
    simp [h1, h2]

theorem alModify_mem {α : Type} {P : α → Prop} {m : List (Nat × α)} {k : Nat} {g : α → α}
    (hm : ∀ p ∈ m, P p.2) (hg : ∀ v, P v → P (g v)) :
    ∀ p ∈ alModify m k g, P p.2 := by
  induction m with
  | nil => simp [alModify]
  | cons q rest ih =>
    obtain ⟨k', v⟩ := q
    intro p hp
    simp only [alModify] at hp
    split at hp
    · rcases List.mem_cons.mp hp with h1 | h2
      · subst h1
        exact hg v (hm (k', v) (List.mem_cons_self _ _))
      · exact hm p (List.mem_cons_of_mem _ h2)
    · rcases List.mem_cons.mp hp with h1 | h2
      · subst h1
        exact hm (k', v) (List.mem_cons_self _ _)
      · exact ih (fun q hq => hm q (List.mem_cons_of_mem _ hq)) p h2

theorem alInsert_mem {α : Type} {P : α → Prop} {m : List (Nat × α)} {k : Nat} {v : α}
    (hm : ∀ p ∈ m, P p.2) (hv : P v) :
    ∀ p ∈ alInsert m k v, P p.2 := by
  induction m with
  | nil =>
    intro p hp
    simp only [alInsert, List.mem_singleton] at hp
    subst hp
    exact hv
  | cons q rest ih =>
    obtain ⟨k', v'⟩ := q
    intro p hp
    simp only [alInsert] at hp
    split at hp
    · rcases List.mem_cons.mp hp with h1 | h2
      · subst h1
        exact hv
      · exact hm p h2
    · rcases List.mem_cons.mp hp with h1 | h2
      · subst h1
        exact hm (k', v') (List.mem_cons_self _ _)
      · exact ih (fun q hq => hm q (List.mem_cons_of_mem _ hq)) p h2

theorem alUpdate_mem {α : Type} {P : α → Prop} {m : List (Nat × α)} {k : Nat} {d : α}
    {g : α → α} (hm : ∀ p ∈ m, P p.2) (hd : P (g d)) (hg : ∀ v, P v → P (g v)) :
    ∀ p ∈ alUpdate m k d g, P p.2 := by
  unfold alUpdate
  split
  · exact alModify_mem hm hg
  · exact alInsert_mem hm hd

/-- One step of the per-address history of `defined` for the `Func`
entries at one address: the first entry creates the `Function` with its
size, later entries only append their name. -/
def funcStep (cur : Option Function) (e : SymEntry) : Option Function :=
  match cur with
  | none => some ⟨[e.name.getD ""], e.size, none⟩
  | some f => some { f with names := f.names ++ [e.name.getD ""] }

theorem funcStep_foldl_some (l : List SymEntry) :
    ∀ f : Function, l.foldl funcStep (some f) =
      some ⟨f.names ++ l.map (fun e => e.name.getD ""), f.size, f.stack⟩ := by
  induction l with
  | nil => intro f; simp
  | cons e rest ih =>
    intro f
    simp only [List.foldl_cons, funcStep, List.map_cons]
    rw [ih]
    simp

theorem funcStep_foldl_cons (e : SymEntry) (l : List SymEntry) :
    (e :: l).foldl funcStep none =
      some ⟨(e :: l).map (fun e => e.name.getD ""), e.size, none⟩ := by
  simp only [List.foldl_cons, funcStep, List.map_cons]
  rw [funcStep_foldl_some]
  simp

/-- Per-address characterization of the entry loop: for a nonzero address
`A`, the binding of `defined` at `A` is the fold of `funcStep` over the
`Func`-typed entries with value `A`, in encounter order. -/
theorem processEntries_defined_at (es : List SymEntry) :
    ∀ (st st' : SState), processEntries st es = Except.ok st' → ∀ A : Nat, A ≠ 0 →
      alFind? st'.defined A =
        (es.filter (fun e => e.ty == SymType.func && e.value == A)).foldl funcStep
          (alFind? st.defined A) := by
  induction es with
  | nil =>
    intro st st' h A hA
    simp only [processEntries] at h
    injection h with h
    subst h
    simp
  | cons e es' ih =>
    intro st st' h A hA
    simp only [processEntries] at h
    split at h
    · cases h
    · next st₁ hpe =>
      unfold processEntry at hpe
      split at hpe
      · next hty =>
        -- e.ty = Func
        split at hpe
        · cases hpe
        · next n hn =>
          split at hpe
          · next h0 =>
            -- zero value and size: goes to `undefined`
            injection hpe with hst
            subst hst
            have hfe : (e.ty == SymType.func && e.value == A) = false := by
              rw [hty, h0.1]
              simp [Ne.symm hA]
            simp only [List.filter_cons, hfe, Bool.false_eq_true, if_false]
            exact ih _ _ h A hA
          · next h0 =>
            injection hpe with hst
            subst hst
            by_cases hvA : e.value = A
            · have hfe : (e.ty == SymType.func && e.value == A) = true := by
                simp [hty, hvA]
              simp only [List.filter_cons, hfe, eq_self_iff_true, if_true]
              rw [ih _ _ h A hA]
              simp only [List.foldl_cons]
              have hbind : alFind? (funcUpdate st.defined e.value e.size n) A =
                  funcStep (alFind? st.defined A) e := by
                unfold funcUpdate
                rw [← hvA, alUpdate_find?_self]
                cases hprev : alFind? st.defined e.value with
                | none => simp [funcStep, hn]
                | some f₀ => simp [funcStep, hn]
              rw [hbind]
            · have hfe : (e.ty == SymType.func && e.value == A) = false := by
                simp [hvA]
              simp only [List.filter_cons, hfe, Bool.false_eq_true, if_false]
              rw [ih _ _ h A hA]
              have hbind : alFind? (funcUpdate st.defined e.value e.size n) A =
                  alFind? st.defined A := by
                unfold funcUpdate
                exact alUpdate_find?_ne _ _ _ (fun he => hvA (he.symm))
              rw [hbind]
      · next hty =>
        -- e.ty = NoType: `defined` is untouched
        have hfe : (e.ty == SymType.func && e.value == A) = false := by
          simp [hty]
        simp only [List.filter_cons, hfe, Bool.false_eq_true, if_false]
        have hd1 : st₁.defined = st.defined := by
          split at hpe
          · injection hpe with hst
            subst hst
            rfl
          · next n hn =>
            split at hpe
            · injection hpe with hst
              subst hst
              rfl
            · injection hpe with hst
              subst hst
              rfl
        rw [ih _ _ h A hA, hd1]
      · next _ hty =>
        -- other types: no effect
        have hfe : (e.ty == SymType.func && e.value == A) = false := by
          simp [hty]
        simp only [List.filter_cons, hfe, Bool.false_eq_true, if_false]
        injection hpe with hst
        subst hst
        exact ih _ _ h A hA

/-- Exhaustive description of one successful entry-loop iteration:
a zero/zero `Func` entry feeds `undefined`, any other `Func` entry feeds
`defined`, a non-tag named `NoType` entry feeds `maybe_aliases`, and
everything else leaves the state unchanged. -/
theorem processEntry_cases (st : SState) (e : SymEntry) (st₁ : SState)
    (h : processEntry st e = Except.ok st₁) :
    (∃ n, e.ty = SymType.func ∧ e.name = some n ∧ e.value = 0 ∧ e.size = 0 ∧
      st₁ = { st with undefined := insertSet st.undefined n }) ∨
    (∃ n, e.ty = SymType.func ∧ e.name = some n ∧ ¬(e.value = 0 ∧ e.size = 0) ∧
      st₁ = { st with defined := funcUpdate st.defined e.value e.size n }) ∨
    (∃ n, e.ty = SymType.noType ∧ e.name = some n ∧ is_tag n = false ∧
      st₁ = { st with maybe_aliases := aliasUpdate st.maybe_aliases e.value n }) ∨
    (st₁ = st ∧ e.ty ≠ SymType.func) := by
  unfold processEntry at h
  split at h
  · next hty =>
    split at h
    · cases h
    · next n hn =>
      split at h
      · next h0 =>
        injection h with h'
        exact Or.inl ⟨n, hty, hn, h0.1, h0.2, h'.symm⟩
      · next h0 =>
        injection h with h'
        exact Or.inr (Or.inl ⟨n, hty, hn, h0, h'.symm⟩)
  · next hty =>
    split at h
    · injection h with h'
      exact Or.inr (Or.inr (Or.inr ⟨h'.symm, fun hf => by rw [hty] at hf; cases hf⟩))
    · next n hn =>
      split at h
      · injection h with h'
        exact Or.inr (Or.inr (Or.inr ⟨h'.symm, fun hf => by rw [hty] at hf; cases hf⟩))
      · next htag =>
        injection h with h'
        refine Or.inr (Or.inr (Or.inl ⟨n, hty, hn, ?_, h'.symm⟩))
        revert htag
        cases is_tag n <;> simp
  · next _ hty =>
    injection h with h'
    exact Or.inr (Or.inr (Or.inr ⟨h'.symm, fun hf => by rw [hty] at hf; cases hf⟩))

/-- On a successful run, every `Func`-typed entry had a resolvable name
(an unresolvable one aborts with `nameResolution`). -/
theorem processEntries_func_names (es : List SymEntry) :
    ∀ st st', processEntries st es = Except.ok st' →
      ∀ e, e ∈ es → e.ty = SymType.func → ∃ n, e.name = some n := by
  induction es with
  | nil =>
    intro st st' _ e he
    cases he
  | cons e₀ es' ih =>
    intro st st' h e he hty
    simp only [processEntries] at h
    split at h
    · cases h
    · next st₁ hpe =>
      rcases List.mem_cons.mp he with he₀ | he'
      · subst he₀
        rcases processEntry_cases st e st₁ hpe with
          ⟨n, _, hn, _⟩ | ⟨n, _, hn, _⟩ | ⟨n, hty2, _⟩ | ⟨_, hty2⟩
        · exact ⟨n, hn⟩
        · exact ⟨n, hn⟩
        · rw [hty] at hty2; cases hty2
        · exact absurd hty hty2
      · exact ih st₁ st' h e he' hty

/-- The entry loop never sets a stack value: every `Function` it builds
has `stack = none`. -/
theorem processEntries_defined_stack (es : List SymEntry) :
    ∀ st st', processEntries st es = Except.ok st' →
      (∀ k f, alFind? st.defined k = some f → f.stack = none) →
      ∀ k f, alFind? st'.defined k = some f → f.stack = none := by
  induction es with
  | nil =>
    intro st st' h hinv
    simp only [processEntries] at h
    injection h with h
    subst h
    exact hinv
  | cons e es' ih =>
    intro st st' h hinv
    simp only [processEntries] at h
    split at h
    · cases h
    · next st₁ hpe =>
      apply ih st₁ st' h
      rcases processEntry_cases st e st₁ hpe with
        ⟨n, _, _, _, _, hst⟩ | ⟨n, _, _, _, hst⟩ | ⟨n, _, _, _, hst⟩ | ⟨hst, _⟩
      · subst hst
        exact hinv
      · subst hst
        intro k f hk
        unfold funcUpdate at hk
        by_cases hkv : k = e.value
        · subst hkv
          rw [alUpdate_find?_self] at hk
          injection hk with hk
          subst hk
          cases hprev : alFind? st.defined e.value with
          | none => simp [hprev]
          | some f₀ =>
            simp only [hprev, Option.getD_some]
            exact hinv _ _ hprev
        · rw [alUpdate_find?_ne _ _ _ hkv] at hk
          exact hinv k f hk
      · subst hst
        exact hinv
      · subst hst
        exact hinv

/-- Provenance of the names collected by the entry loop: every name in a
`defined` binding satisfies any predicate that holds of all `Func`-entry
names (aliases are attached only later, by the alias loop). -/
theorem processEntries_defined_names (P : String → Prop) (es : List SymEntry) :
    ∀ st st', processEntries st es = Except.ok st' →
      (∀ k f, alFind? st.defined k = some f → ∀ n, n ∈ f.names → P n) →
      (∀ e, e ∈ es → e.ty = SymType.func → ∀ n, e.name = some n → P n) →
      ∀ k f, alFind? st'.defined k = some f → ∀ n, n ∈ f.names → P n := by
  induction es with
  | nil =>
    intro st st' h hinv _
    simp only [processEntries] at h
    injection h with h
    subst h
    exact hinv
  | cons e es' ih =>
    intro st st' h hinv hes
    simp only [processEntries] at h
    split at h
    · cases h
    · next st₁ hpe =>
      have hes' : ∀ e', e' ∈ es' → e'.ty = SymType.func → ∀ n, e'.name = some n → P n :=
        fun e' he' => hes e' (List.mem_cons_of_mem _ he')
      apply ih st₁ st' h _ hes'
      rcases processEntry_cases st e st₁ hpe with
        ⟨n, _, _, _, _, hst⟩ | ⟨n, hty, hn, _, hst⟩ | ⟨n, _, _, _, hst⟩ | ⟨hst, _⟩
      · subst hst
        exact hinv
      · subst hst
        intro k f hk m hm
        unfold funcUpdate at hk
        by_cases hkv : k = e.value
        · subst hkv
          rw [alUpdate_find?_self] at hk
          injection hk with hk
          subst hk
          cases hprev : alFind? st.defined e.value with
          | none =>
            rw [hprev] at hm
            simp only [Option.getD_none, List.nil_append, List.mem_singleton] at hm
            subst hm
            exact hes e (List.mem_cons_self _ _) hty _ hn
          | some f₀ =>
            rw [hprev] at hm
            simp only [Option.getD_some] at hm
            rcases List.mem_append.mp hm with h1 | h2
            · exact hinv _ _ hprev m h1
            · rw [List.mem_singleton] at h2
              subst h2
              exact hes e (List.mem_cons_self _ _) hty m hn
        · rw [alUpdate_find?_ne _ _ _ hkv] at hk
          exact hinv k f hk m hm
      · subst hst
        exact hinv
      · subst hst
        exact hinv

/-- The entry loop only records non-tag names as alias candidates. -/
theorem processEntries_ma_nontag (es : List SymEntry) :
    ∀ st st', processEntries st es = Except.ok st' →
      (∀ p, p ∈ st.maybe_aliases → ∀ n, n ∈ p.2 → is_tag n = false) →
      ∀ p, p ∈ st'.maybe_aliases → ∀ n, n ∈ p.2 → is_tag n = false := by
  induction es with
  | nil =>
    intro st st' h hinv
    simp only [processEntries] at h
    injection h with h
    subst h
    exact hinv
  | cons e es' ih =>
    intro st st' h hinv
    simp only [processEntries] at h
    split at h
    · cases h
    · next st₁ hpe =>
      apply ih st₁ st' h
      rcases processEntry_cases st e st₁ hpe with
        ⟨n, _, _, _, _, hst⟩ | ⟨n, _, _, _, hst⟩ | ⟨n, _, _, htag, hst⟩ | ⟨hst, _⟩
      · subst hst
        exact hinv
      · subst hst
        exact hinv
      · subst hst
        intro p hp
        have hp' : p ∈ alUpdate st.maybe_aliases e.value [] (fun ns => ns ++ [n]) := hp
        refine alUpdate_mem (P := fun ns => ∀ m, m ∈ ns → is_tag m = false) ?_ ?_ ?_ p hp'
        · exact fun q hq => hinv q hq
        · intro m hm
          simp only [List.nil_append, List.mem_singleton] at hm
          subst hm
          exact htag
        · intro v hv m hm
          rcases List.mem_append.mp hm with h1 | h2
          · exact hv m h1
          · rw [List.mem_singleton] at h2
            subst h2
            exact htag
      · subst hst
        exact hinv

/-- Effect of one alias-loop iteration on the binding at key `k`: it is
either untouched or extended with the group's names (and an absent key
stays absent). -/
theorem aliasStep_find? (d : List (Nat × Function)) (p : Nat × List String) (k : Nat) :
    (alFind? d k = none → alFind? (aliasStep d p) k = none) ∧
    (∀ f₀, alFind? d k = some f₀ →
      alFind? (aliasStep d p) k = some f₀ ∨
      alFind? (aliasStep d p) k = some ⟨f₀.names ++ p.2, f₀.size, f₀.stack⟩) := by
  unfold aliasStep
  split
  · next hset =>
    constructor
    · intro hnone
      by_cases hk : k = setLowBit p.1
      · subst hk
        rw [hnone] at hset
        cases hset
      · rw [alModify_find?_ne hk]
        exact hnone
    · intro f₀ hf
      by_cases hk : k = setLowBit p.1
      · subst hk
        rw [alModify_find?_self hf]
        exact Or.inr rfl
      · rw [alModify_find?_ne hk]
        exact Or.inl hf
  · split
    · next hclear =>
      constructor
      · intro hnone
        by_cases hk : k = clearLowBit p.1
        · subst hk
          rw [hnone] at hclear
          cases hclear
        · rw [alModify_find?_ne hk]
          exact hnone
      · intro f₀ hf
        by_cases hk : k = clearLowBit p.1
        · subst hk
          rw [alModify_find?_self hf]
          exact Or.inr rfl
        · rw [alModify_find?_ne hk]
          exact Or.inl hf
    · exact ⟨fun h => h, fun f₀ hf => Or.inl hf⟩

theorem aliasPass_find?_none (ma : List (Nat × List String)) :
    ∀ (d : List (Nat × Function)) (k : Nat), alFind? d k = none →
      alFind? (ma.foldl aliasStep d) k = none := by
  induction ma with
  | nil => intro d k h; exact h
  | cons p ma' ih =>
    intro d k h
    simp only [List.foldl_cons]
    exact ih _ _ ((aliasStep_find? d p k).1 h)

/-- The alias loop only ever appends alias-group names to an existing
binding: names, with sizes and stacks untouched, grow by a (possibly
empty) suffix drawn from the groups. -/
theorem aliasPass_find?_some (ma : List (Nat × List String)) :
    ∀ (d : List (Nat × Function)) (k : Nat) (f₀ : Function), alFind? d k = some f₀ →
      ∃ ext, alFind? (ma.foldl aliasStep d) k = some ⟨f₀.names ++ ext, f₀.size, f₀.stack⟩ ∧
        ∀ n, n ∈ ext → ∃ p, p ∈ ma ∧ n ∈ p.2 := by
  induction ma with
  | nil =>
    intro d k f₀ h
    refine ⟨[], ?_, by simp⟩
    simpa using h
  | cons p ma' ih =>
    intro d k f₀ h
    simp only [List.foldl_cons]
    rcases (aliasStep_find? d p k).2 f₀ h with hstep | hstep
    · obtain ⟨ext, hfind, hmem⟩ := ih (aliasStep d p) k f₀ hstep
      refine ⟨ext, hfind, fun n hn => ?_⟩
      obtain ⟨q, hq, hnq⟩ := hmem n hn
      exact ⟨q, List.mem_cons_of_mem _ hq, hnq⟩
    · obtain ⟨ext, hfind, hmem⟩ := ih (aliasStep d p) k _ hstep
      refine ⟨p.2 ++ ext, ?_, fun n hn => ?_⟩
      · rw [hfind]
        simp [List.append_assoc]
      · rcases List.mem_append.mp hn with h1 | h2
        · exact ⟨p, List.mem_cons_self _ _, h1⟩
        · obtain ⟨q, hq, hnq⟩ := hmem n h2
          exact ⟨q, List.mem_cons_of_mem _ hq, hnq⟩

theorem process_symtab_ok (entries : List SymEntry) (u : List String)
    (dm : List (Nat × Function)) (h : process_symtab_exec entries = Except.ok (u, dm)) :
    ∃ st, processEntries ⟨[], [], []⟩ entries = Except.ok st ∧ u = st.undefined ∧
      dm = st.maybe_aliases.foldl aliasStep st.defined := by
  unfold process_symtab_exec at h
  split at h
  · cases h
  · next st hst =>
    injection h with h'
    exact ⟨st, hst, (Prod.mk.injEq _ _ _ _ ▸ h'.symm).1, (Prod.mk.injEq _ _ _ _ ▸ h'.symm).2⟩

/-- The symbol-table phase never assigns a stack value. -/
theorem symtab_defined_stack_none (entries : List SymEntry) (u : List String)
    (dm : List (Nat × Function)) (h : process_symtab_exec entries = Except.ok (u, dm)) :
    ∀ k f, alFind? dm k = some f → f.stack = none := by
  obtain ⟨st, hst, hu, hdm⟩ := process_symtab_ok entries u dm h
  subst hdm
  intro k f hk
  cases h0 : alFind? st.defined k with
  | none =>
    rw [aliasPass_find?_none _ _ _ h0] at hk
    cases hk
  | some f₀ =>
    obtain ⟨ext, hfind, _⟩ := aliasPass_find?_some _ _ _ _ h0
    rw [hfind] at hk
    injection hk with hk
    subst hk
    exact processEntries_defined_stack entries _ _ hst
      (by intro k f hf; simp [alFind?] at hf) k f₀ h0

theorem foldl_correlate_nil (recs : List (Nat × Nat)) :
    recs.foldl (fun d r => correlateOne d r.1 r.2) ([] : List (Nat × Function)) = [] := by
  induction recs with
  | nil => rfl
  | cons r rest ih =>
    have hnil : correlateOne [] r.1 r.2 = [] :=
      correlateOne_of_none (d := []) (a := r.1) r.2 rfl rfl
    simp only [List.foldl_cons, hnil]
    exact ih

theorem stackLoop_append (have32 : Bool) (pre : List Nat) (recs : List (Nat × Nat))
    (tail : List Nat) (d : List (Nat × Function))
    (h : decodeAll have32 pre = Except.ok recs) :
    stackLoop have32 d (pre ++ tail) =
      stackLoop have32 (recs.foldl (fun d r => correlateOne d r.1 r.2) d) tail :=
  stackLoop_append_aux have32 pre.length pre (Nat.le_refl _) recs tail d h

/-- C9: a stack-size record whose address matches no defined function
under either bit variant is discarded: the catalog is untouched. -/
theorem c9_unmatched_record_frame (d : List (Nat × Function)) (a s : Nat)
    (h1 : alFind? d (setLowBit a) = none) (h2 : alFind? d (clearLowBit a) = none) :
    correlateOne d a s = d ∧ ∀ k, alFind? (correlateOne d a s) k = alFind? d k := by
  have he := correlateOne_of_none s h1 h2
  exact ⟨he, fun k => by rw [he]⟩

theorem c9_witness :
    correlateOne [(8, Function.mk ["f"] 1 none)] 2 5 = [(8, Function.mk ["f"] 1 none)] ∧
      alFind? (correlateOne [(8, Function.mk ["f"] 1 none)] 2 5) 8 =
        some (Function.mk ["f"] 1 none) := by
  have h := c9_unmatched_record_frame [(8, Function.mk ["f"] 1 none)] 2 5 rfl rfl
  exact ⟨h.1, by rw [h.2 8]; rfl⟩

/-- C1 (amended): processing a record `(a, s)` assigns `s` to the function
at key `a ||| 1` when defined (leaving every other key unchanged), else to
the function at key `a & !1` when defined; hence a function at odd `A`
receives a record at `A - 1` unconditionally, and a function at even `A`
receives a record at `A + 1` provided no function is defined at `A + 1`
itself. -/
theorem c1_correlator_low_bit (d : List (Nat × Function)) (a s : Nat) :
    (∀ f, alFind? d (setLowBit a) = some f →
      alFind? (correlateOne d a s) (setLowBit a) = some ⟨f.names, f.size, some s⟩ ∧
        ∀ k, k ≠ setLowBit a → alFind? (correlateOne d a s) k = alFind? d k) ∧
    (alFind? d (setLowBit a) = none → ∀ f, alFind? d (clearLowBit a) = some f →
      alFind? (correlateOne d a s) (clearLowBit a) = some ⟨f.names, f.size, some s⟩ ∧
        ∀ k, k ≠ clearLowBit a → alFind? (correlateOne d a s) k = alFind? d k) ∧
    (∀ A f, A % 2 = 1 → alFind? d A = some f →
      alFind? (correlateOne d (A - 1) s) A = some ⟨f.names, f.size, some s⟩) ∧
    (∀ A f, A % 2 = 0 → alFind? d A = some f → alFind? d (A + 1) = none →
      alFind? (correlateOne d (A + 1) s) A = some ⟨f.names, f.size, some s⟩) := by
  refine ⟨?_, ?_, ?_, ?_⟩
  · intro f hf
    have hset : (alFind? d (setLowBit a)).isSome = true := by rw [hf]; rfl
    constructor
    · unfold correlateOne
      rw [if_pos hset]
      exact alModify_find?_self hf
    · intro k hk
      unfold correlateOne
      rw [if_pos hset]
      exact alModify_find?_ne hk
  · intro hnone f hf
    have hset : ¬((alFind? d (setLowBit a)).isSome = true) := by
      rw [hnone]
      simp
    have hclear : (alFind? d (clearLowBit a)).isSome = true := by rw [hf]; rfl
    constructor
    · unfold correlateOne
      rw [if_neg hset, if_pos hclear]
      exact alModify_find?_self hf
    · intro k hk
      unfold correlateOne
      rw [if_neg hset, if_pos hclear]
      exact alModify_find?_ne hk
  · intro A f hodd hf
    have hs : setLowBit (A - 1) = A := by
      rw [setLowBit_of_even (by omega)]
      omega
    have hhit : hitKey d (A - 1) A = true := by
      unfold hitKey
      rw [hs, hf]
      simp
    have hstep := correlateOne_find?_step d (A - 1, s) hf
    rw [hhit] at hstep
    simpa using hstep
  · intro A f heven hf hnone
    have hs : setLowBit (A + 1) = A + 1 := setLowBit_of_odd (by omega)
    have hc : clearLowBit (A + 1) = A := by
      rw [clearLowBit_of_odd (by omega)]
      omega
    have hhit : hitKey d (A + 1) A = true := by
      unfold hitKey
      rw [hs, hc, hnone, hf]
      simp
    have hstep := correlateOne_find?_step d (A + 1, s) hf
    rw [hhit] at hstep
    simpa using hstep

theorem c1_witness :
    (2 : Nat) % 2 = 0 ∧
    alFind? [(2, Function.mk ["f"] 6 none)] 2 = some (Function.mk ["f"] 6 none) ∧
    alFind? [(2, Function.mk ["f"] 6 none)] 3 = none ∧
    alFind? (correlateOne [(2, Function.mk ["f"] 6 none)] 3 9) 2 =
      some (Function.mk ["f"] 6 (some 9)) := by
  refine ⟨rfl, rfl, rfl, ?_⟩
  exact (c1_correlator_low_bit [(2, Function.mk ["f"] 6 none)] 3 9).2.2.2 2
    (Function.mk ["f"] 6 none) rfl rfl rfl

/-- C1 counterexample: a function defined at the even address 4 does not
receive the record at address 5 when a function is also defined at 5 —
refuting the unconditional even-address reading of the claim. -/
theorem c1_counterexample :
    (4 : Nat) % 2 = 0 ∧
    alFind? [(4, Function.mk ["f"] 1 none), (5, Function.mk ["g"] 1 none)] 4 =
      some (Function.mk ["f"] 1 none) ∧
    correlateOne [(4, Function.mk ["f"] 1 none), (5, Function.mk ["g"] 1 none)] 5 7 =
      [(4, Function.mk ["f"] 1 none), (5, Function.mk ["g"] 1 (some 7))] ∧
    alFind? (correlateOne [(4, Function.mk ["f"] 1 none), (5, Function.mk ["g"] 1 none)] 5 7) 4 =
      some (Function.mk ["f"] 1 none) := by
  refine ⟨rfl, rfl, ?_, ?_⟩ <;> rfl

/-- C5: alias resolution tries the key with the low bit set first, then
clear, appends all group names to the matched function, and drops the
group without touching the catalog when neither variant matches. -/
theorem c5_alias_two_variant_lookup (d : List (Nat × Function)) (V : Nat)
    (ns : List String) :
    (∀ f, alFind? d (setLowBit V) = some f →
      alFind? (aliasStep d (V, ns)) (setLowBit V) = some ⟨f.names ++ ns, f.size, f.stack⟩ ∧
        ∀ k, k ≠ setLowBit V → alFind? (aliasStep d (V, ns)) k = alFind? d k) ∧
    (alFind? d (setLowBit V) = none → ∀ f, alFind? d (clearLowBit V) = some f →
      alFind? (aliasStep d (V, ns)) (clearLowBit V) = some ⟨f.names ++ ns, f.size, f.stack⟩ ∧
        ∀ k, k ≠ clearLowBit V → alFind? (aliasStep d (V, ns)) k = alFind? d k) ∧
    (alFind? d (setLowBit V) = none → alFind? d (clearLowBit V) = none →
      aliasStep d (V, ns) = d) := by
  refine ⟨?_, ?_, ?_⟩
  · intro f hf
    have hset : (alFind? d (setLowBit V)).isSome = true := by rw [hf]; rfl
    constructor
    · unfold aliasStep
      rw [if_pos hset]
      exact alModify_find?_self hf
    · intro k hk
      unfold aliasStep
      rw [if_pos hset]
      exact alModify_find?_ne hk
  · intro hnone f hf
    have hset : ¬((alFind? d (setLowBit V)).isSome = true) := by
      rw [hnone]
      simp
    have hclear : (alFind? d (clearLowBit V)).isSome = true := by rw [hf]; rfl
    constructor
    · unfold aliasStep
      rw [if_neg hset, if_pos hclear]
      exact alModify_find?_self hf
    · intro k hk
      unfold aliasStep
      rw [if_neg hset, if_pos hclear]
      exact alModify_find?_ne hk
  · intro hnone1 hnone2
    unfold aliasStep
    rw [if_neg (by rw [hnone1]; simp), if_neg (by rw [hnone2]; simp)]

theorem c5_witness :
    alFind? (aliasStep [(5, Function.mk ["f"] 1 none)] (4, ["x", "y"])) (setLowBit 4) =
      some (Function.mk ["f", "x", "y"] 1 none) := by
  have h := ((c5_alias_two_variant_lookup [(5, Function.mk ["f"] 1 none)] 4 ["x", "y"]).1
    (Function.mk ["f"] 1 none) rfl).1
  exact h

/-- C6: a `Func` entry with zero address and zero size contributes its
name to `undefined` and leaves `defined` (and `maybe_aliases`)
unchanged. -/
theorem c6_zero_zero_lands_undefined (st : SState) (e : SymEntry) (n : String)
    (hty : e.ty = SymType.func) (hname : e.name = some n) (hv : e.value = 0)
    (hs : e.size = 0) :
    processEntry st e = Except.ok { st with undefined := insertSet st.undefined n } ∧
    n ∈ insertSet st.undefined n ∧
    ({ st with undefined := insertSet st.undefined n } : SState).defined = st.defined := by
  refine ⟨?_, ?_, rfl⟩
  · simp [processEntry, hty, hname, hv, hs]
  · unfold insertSet
    split
    · next hmem => exact hmem
    · simp

theorem c6_witness :
    processEntry ⟨[], [], []⟩ ⟨SymType.func, 0, 0, some "ext"⟩ =
      Except.ok ⟨["ext"], [], []⟩ ∧ "ext" ∈ (["ext"] : List String) := by
  have h := c6_zero_zero_lands_undefined ⟨[], [], []⟩ ⟨SymType.func, 0, 0, some "ext"⟩
    "ext" rfl rfl rfl rfl
  exact ⟨h.1, h.2.1⟩

/-- C2 (amended): a function's stack field is unset until a record lands
on its key; every matching record assigns it, so with several matching
records the last one wins (and it is untouched when none matches). -/
theorem c2_every_match_assigns_last_wins (w : Bool) (d : List (Nat × Function))
    (data : List Nat) (recs : List (Nat × Nat)) (k : Nat) (f : Function)
    (hdec : decodeAll w data = Except.ok recs) (hf : alFind? d k = some f) :
    ∃ d', stackLoop w d data = Except.ok d' ∧
      alFind? d' k = some ⟨f.names, f.size, lastMatch d k recs f.stack⟩ := by
  rw [stackLoop_eq_decodeAll, hdec]
  exact ⟨_, rfl, correlate_foldl recs d k f hf⟩

/-- The stack-size bytes of the records `(4, 10)` and `(5, 20)` in 64-bit
little-endian address encoding. -/
def c2bytes : List Nat := [4, 0, 0, 0, 0, 0, 0, 0, 10, 5, 0, 0, 0, 0, 0, 0, 0, 20]

/-- C2 counterexample: with a function defined at 5, the record `(4, 10)`
(key `4 ||| 1 = 5`) assigns stack 10, and the later record `(5, 20)` (key
`5 ||| 1 = 5`) replaces it: the final value is 20 — the first matching
record's value does not win, and the field is assigned twice. -/
theorem c2_counterexample :
    correlateOne [(5, Function.mk ["f"] 1 none)] 4 10 =
      [(5, Function.mk ["f"] 1 (some 10))] ∧
    stackLoop false [(5, Function.mk ["f"] 1 none)] c2bytes =
      Except.ok [(5, Function.mk ["f"] 1 (some 20))] := by
  constructor
  · rfl
  · simp [c2bytes, stackLoop, readLE, readULEB, addrWidth, correlateOne, alFind?,
      alModify, setLowBit, clearLowBit, Nat.shiftLeft_zero, Nat.zero_or]

theorem c2_witness :
    ∃ d', stackLoop false [(5, Function.mk ["f"] 1 none)] c2bytes = Except.ok d' ∧
      alFind? d' 5 = some (Function.mk ["f"] 1 (some 20)) := by
  have hdec : decodeAll false c2bytes = Except.ok [(4, 10), (5, 20)] := by
    simp [c2bytes, decodeAll, readLE, readULEB, addrWidth, Nat.shiftLeft_zero, Nat.zero_or]
  obtain ⟨d', h1, h2⟩ := c2_every_match_assigns_last_wins false
    [(5, Function.mk ["f"] 1 none)] c2bytes [(4, 10), (5, 20)] 5
    (Function.mk ["f"] 1 none) hdec rfl
  refine ⟨d', h1, ?_⟩
  rw [h2]
  rfl

/-- C3: all `Func` entries sharing one nonzero address feed a single
`Function`: its size is the first such entry's size, and its names list is
their (resolvable) names in encounter order, followed only by the aliases
attached later. -/
theorem c3_duplicate_entries_one_function (entries : List SymEntry) (u : List String)
    (dm : List (Nat × Function)) (A : Nat) (e₀ : SymEntry) (tl : List SymEntry)
    (h : process_symtab_exec entries = Except.ok (u, dm)) (hA : A ≠ 0)
    (hfs : entries.filter (fun e => e.ty == SymType.func && e.value == A) = e₀ :: tl) :
    (∀ e, e ∈ e₀ :: tl → ∃ n, e.name = some n) ∧
    ∃ f ext, alFind? dm A = some f ∧ f.size = e₀.size ∧ f.stack = none ∧
      f.names = (e₀ :: tl).map (fun e => e.name.getD "") ++ ext := by
  obtain ⟨st, hst, hu, hdm⟩ := process_symtab_ok entries u dm h
  constructor
  · intro e he
    have he' : e ∈ entries.filter (fun e => e.ty == SymType.func && e.value == A) := by
      rw [hfs]
      exact he
    have hmem : e ∈ entries := (List.mem_filter.mp he').1
    have hp : (e.ty == SymType.func && e.value == A) = true := (List.mem_filter.mp he').2
    have hty : e.ty = SymType.func := eq_of_beq ((Bool.and_eq_true _ _).mp hp).1
    exact processEntries_func_names entries _ _ hst e hmem hty
  · have hchar := processEntries_defined_at entries _ _ hst A hA
    rw [hfs] at hchar
    have hchar' : alFind? st.defined A = List.foldl funcStep none (e₀ :: tl) := hchar
    rw [funcStep_foldl_cons] at hchar'
    subst hdm
    obtain ⟨ext, hfind, _⟩ := aliasPass_find?_some st.maybe_aliases st.defined A _ hchar'
    exact ⟨_, ext, hfind, rfl, rfl, rfl⟩

theorem c3_witness :
    (∀ e, e ∈ [SymEntry.mk SymType.func 2 7 (some "f"),
        SymEntry.mk SymType.func 2 9 (some "g")] → ∃ n, e.name = some n) ∧
    ∃ f ext, alFind? [(2, Function.mk ["f", "g"] 7 none)] 2 = some f ∧
      f.size = (SymEntry.mk SymType.func 2 7 (some "f")).size ∧ f.stack = none ∧
      f.names = ([SymEntry.mk SymType.func 2 7 (some "f"),
        SymEntry.mk SymType.func 2 9 (some "g")]).map (fun e => e.name.getD "") ++ ext :=
  c3_duplicate_entries_one_function
    [SymEntry.mk SymType.func 2 7 (some "f"), SymEntry.mk SymType.func 2 9 (some "g")]
    [] [(2, Function.mk ["f", "g"] 7 none)] 2
    (SymEntry.mk SymType.func 2 7 (some "f")) [SymEntry.mk SymType.func 2 9 (some "g")]
    rfl (by decide) rfl

/-- C4 (amended): a name reachable in any `Function`'s names list that
satisfies the code's tag predicate `is_tag` can only stem from a
`Func`-typed entry — tag names of untyped entries are never recorded as
alias candidates and never attached as aliases.  (`is_tag` accepts
`$a`/`$t`/`$d` and those followed by `.` and a decimal numeral whose
value fits in an unsigned 64-bit integer, optionally preceded by `+`.) -/
theorem c4_tags_never_aliased (entries : List SymEntry) (u : List String)
    (dm : List (Nat × Function)) (h : process_symtab_exec entries = Except.ok (u, dm))
    (k : Nat) (f : Function) (hk : alFind? dm k = some f) (n : String)
    (hn : n ∈ f.names) (ht : is_tag n = true) :
    ∃ e, e ∈ entries ∧ e.ty = SymType.func ∧ e.name = some n := by
  obtain ⟨st, hst, hu, hdm⟩ := process_symtab_ok entries u dm h
  subst hdm
  cases h0 : alFind? st.defined k with
  | none =>
    rw [aliasPass_find?_none _ _ _ h0] at hk
    cases hk
  | some f₀ =>
    obtain ⟨ext, hfind, hmem⟩ := aliasPass_find?_some _ _ _ _ h0
    rw [hfind] at hk
    injection hk with hk
    subst hk
    rcases List.mem_append.mp hn with h1 | h2
    · exact processEntries_defined_names
        (fun n => ∃ e, e ∈ entries ∧ e.ty = SymType.func ∧ e.name = some n) entries _ _ hst
        (by intro k f hf; simp [alFind?] at hf)
        (fun e he hty n hn => ⟨e, he, hty, hn⟩) k f₀ h0 n h1
    · obtain ⟨p, hp, hnp⟩ := hmem n h2
      have hnt := processEntries_ma_nontag entries _ _ hst
        (by intro p hp; exact absurd hp (List.not_mem_nil p)) p hp n hnp
      rw [ht] at hnt
      cases hnt

theorem c4_witness :
    ∃ e, e ∈ [SymEntry.mk SymType.func 2 1 (some "$a")] ∧ e.ty = SymType.func ∧
      e.name = some "$a" :=
  c4_tags_never_aliased [SymEntry.mk SymType.func 2 1 (some "$a")] []
    [(2, Function.mk ["$a"] 1 none)] rfl 2 (Function.mk ["$a"] 1 none) rfl "$a"
    (by decide) (by decide)

/-- C4 counterexample: the untyped name `$a.18446744073709551616` matches
the claim's `$a.<digits>` pattern (its suffix is all decimal digits), but
its numeral exceeds `u64::MAX`, so `parse::<u64>()` fails, `is_tag`
rejects it, and the name IS recorded as an alias and appears in a
`Function`'s names list. -/
theorem c4_counterexample :
    (("$a.18446744073709551616".data.drop 3).all isDigitChar = true ∧
      ("$a.18446744073709551616".data.drop 3).length > 0) ∧
    is_tag "$a.18446744073709551616" = false ∧
    process_symtab_exec [SymEntry.mk SymType.func 2 1 (some "f"),
        SymEntry.mk SymType.noType 2 0 (some "$a.18446744073709551616")] =
      Except.ok ([], [(2, Function.mk ["f", "$a.18446744073709551616"] 1 none)]) := by
  refine ⟨⟨by decide, by decide⟩, by decide, by rfl⟩

theorem symtabPhase_stack_none (elf : ElfModel) (w : Bool) (u : List String)
    (dm : List (Nat × Function)) (h : symtabPhase elf = Except.ok (w, u, dm)) :
    ∀ k f, alFind? dm k = some f → f.stack = none := by
  unfold symtabPhase at h
  split at h
  · injection h with h'
    injection h' with ha hb
    injection hb with hb1 hb2
    subst hb2
    intro k f hk
    simp [alFind?] at hk
  · next es heq =>
    split at h
    · cases h
    · next r hr =>
      obtain ⟨u', dm'⟩ := r
      injection h with h'
      injection h' with ha hb
      injection hb with hb1 hb2
      subst hb2
      exact symtab_defined_stack_none es u' dm' hr
  · next es heq =>
    split at h
    · cases h
    · next r hr =>
      obtain ⟨u', dm'⟩ := r
      injection h with h'
      injection h' with ha hb
      injection hb with hb1 hb2
      subst hb2
      exact symtab_defined_stack_none es u' dm' hr
  · cases h

theorem stackLoop_nil (have32 : Bool) (d : List (Nat × Function)) :
    stackLoop have32 d [] = Except.ok d := by
  rw [stackLoop.eq_def]

/-- With neither section present the analysis returns the empty catalog. -/
theorem analyze_no_symtab_none (elf : ElfModel) (h1 : elf.symtab = none)
    (h2 : elf.stack_sizes = none) : analyze_executable elf = Except.ok ⟨false, [], []⟩ := by
  unfold analyze_executable symtabPhase
  rw [h1, h2]

/-- With no symbol table, the analysis runs the stack-size loop at 64-bit
width over an empty catalog. -/
theorem analyze_no_symtab_some (elf : ElfModel) (data : List Nat)
    (h1 : elf.symtab = none) (h2 : elf.stack_sizes = some data) :
    analyze_executable elf =
      match stackLoop false [] data with
      | Except.error er => Except.error er
      | Except.ok d' => Except.ok ⟨false, [], d'⟩ := by
  unfold analyze_executable symtabPhase
  rw [h1, h2]

/-- C7 (amended): a stack-size section consisting of well-formed records
followed by a truncated final record (too few bytes for the fixed-width
address, or a LEB128 value whose continuation never ends before the
section does) aborts the whole analysis with the corresponding
end-of-input error; no catalog is returned.  (The error value itself
carries no section name or offset.) -/
theorem c7_truncated_final_record_aborts (elf : ElfModel) (w : Bool) (u : List String)
    (dm : List (Nat × Function)) (pre : List Nat) (b : Nat) (rest : List Nat)
    (recs : List (Nat × Nat))
    (hsym : symtabPhase elf = Except.ok (w, u, dm))
    (hdata : elf.stack_sizes = some (pre ++ b :: rest))
    (hdec : decodeAll w pre = Except.ok recs)
    (htr : readLE (addrWidth w) (b :: rest) = none ∨
      ∃ a r1, readLE (addrWidth w) (b :: rest) = some (a, r1) ∧ readULEB r1 0 0 = none) :
    analyze_executable elf = Except.error AErr.readEof ∨
      analyze_executable elf = Except.error AErr.lebEof := by
  have hloop := stackLoop_append w pre recs (b :: rest) dm hdec
  have han : analyze_executable elf =
      match stackLoop w dm (pre ++ b :: rest) with
      | Except.error er => Except.error er
      | Except.ok d' => Except.ok ⟨w, u, d'⟩ := by
    unfold analyze_executable
    rw [hsym, hdata]
  rcases stackLoop_truncated w (recs.foldl (fun d r => correlateOne d r.1 r.2) dm)
    b rest htr with he | he
  · left
    rw [han, hloop, he]
  · right
    rw [han, hloop, he]

theorem c7_witness :
    analyze_executable ⟨none, some [128]⟩ = Except.error AErr.readEof ∨
      analyze_executable ⟨none, some [128]⟩ = Except.error AErr.lebEof :=
  c7_truncated_final_record_aborts ⟨none, some [128]⟩ false [] [] [] 128 [] []
    rfl rfl (by simp [decodeAll]) (Or.inl rfl)

/-- C7 counterexample (context claim): two sections whose final record is
truncated at different offsets (9 and 18) are rejected with the very same
error value `AErr.lebEof` — the error the code produces (an end-of-input
error propagated by `?`) identifies neither the section name nor the
offset of the malformed record. -/
theorem c7_counterexample :
    analyze_executable ⟨none, some [1, 0, 0, 0, 0, 0, 0, 0, 128]⟩ =
      Except.error AErr.lebEof ∧
    analyze_executable ⟨none, some [2, 0, 0, 0, 0, 0, 0, 0, 3,
      1, 0, 0, 0, 0, 0, 0, 0, 128]⟩ = Except.error AErr.lebEof := by
  constructor <;>
    simp [analyze_executable, symtabPhase, stackLoop, readLE, readULEB, addrWidth,
      correlateOne, alFind?, alModify, setLowBit, clearLowBit, Nat.shiftLeft_zero,
      Nat.zero_or]

/-- C8 (amended): absent optional sections degrade gracefully — both
absent yields the empty catalog, an absent symbol table always yields
empty catalogs when the analysis succeeds (the stack-size section may
still fail to decode), and an absent or empty stack-size section leaves
the symbol-table phase's catalog intact with every stack unset. -/
theorem c8_absent_sections_degrade (elf : ElfModel) :
    (elf.symtab = none → elf.stack_sizes = none →
      analyze_executable elf = Except.ok ⟨false, [], []⟩) ∧
    (elf.symtab = none → ∀ r, analyze_executable elf = Except.ok r →
      r.undefined = [] ∧ r.defined = []) ∧
    (∀ w u dm, symtabPhase elf = Except.ok (w, u, dm) →
      (elf.stack_sizes = none ∨ elf.stack_sizes = some []) →
      analyze_executable elf = Except.ok ⟨w, u, dm⟩ ∧
        ∀ k f, alFind? dm k = some f → f.stack = none) := by
  refine ⟨?_, ?_, ?_⟩
  · intro h1 h2
    exact analyze_no_symtab_none elf h1 h2
  · intro h1 r hok
    cases h2 : elf.stack_sizes with
    | none =>
      rw [analyze_no_symtab_none elf h1 h2] at hok
      injection hok with hok
      rw [← hok]
      exact ⟨rfl, rfl⟩
    | some data =>
      rw [analyze_no_symtab_some elf data h1 h2, stackLoop_eq_decodeAll] at hok
      cases hd : decodeAll false data with
      | error er =>
        simp only [hd] at hok
        cases hok
      | ok recs =>
        simp only [hd, foldl_correlate_nil] at hok
        injection hok with hok
        rw [← hok]
        exact ⟨rfl, rfl⟩
  · intro w u dm hsym hsec
    have hstacks := symtabPhase_stack_none elf w u dm hsym
    rcases hsec with h2 | h2
    · have han : analyze_executable elf = Except.ok ⟨w, u, dm⟩ := by
        unfold analyze_executable
        rw [hsym, h2]
      exact ⟨han, hstacks⟩
    · have han : analyze_executable elf = Except.ok ⟨w, u, dm⟩ := by
        unfold analyze_executable
        rw [hsym, h2]
        simp [stackLoop_nil]
      exact ⟨han, hstacks⟩

theorem c8_witness :
    analyze_executable ⟨none, none⟩ = Except.ok ⟨false, [], []⟩ :=
  (c8_absent_sections_degrade ⟨none, none⟩).1 rfl rfl

/-- C8 counterexample: an executable with no symbol table but a malformed
(1-byte) stack-size section makes the whole analysis fail — so "with no
symbol table the analysis returns empty catalogs" does not hold
unconditionally, and a present-but-truncated section is an error even
though its absence would not be. -/
theorem c8_counterexample :
    analyze_executable ⟨none, some [0]⟩ = Except.error AErr.readEof := by
  simp [analyze_executable, symtabPhase, stackLoop, readLE, addrWidth]

/-- C10: with no symbol table, `have_32_bit_addresses` stays `false`, a
present stack-size section is decoded by the 64-bit loop over the empty
catalog, and that loop reads each record address with `readLE 8` — an
8-byte little-endian read. -/
theorem c10_no_symtab_64bit_addresses (elf : ElfModel) (data : List Nat)
    (hsym : elf.symtab = none) (hdata : elf.stack_sizes = some data) :
    (analyze_executable elf =
      match stackLoop false [] data with
      | Except.error er => Except.error er
      | Except.ok d' => Except.ok ⟨false, [], d'⟩) ∧
    (∀ r, analyze_executable elf = Except.ok r → r.have_32_bit_addresses = false) ∧
    (∀ (d : List (Nat × Function)) (b : Nat) (rest : List Nat),
      stackLoop false d (b :: rest) =
        match readLE 8 (b :: rest) with
        | none => Except.error AErr.readEof
        | some (address, r1) =>
          match readULEB r1 0 0 with
          | none => Except.error AErr.lebEof
          | some (stack, r2) => stackLoop false (correlateOne d address stack) r2) := by
  have hform := analyze_no_symtab_some elf data hsym hdata
  refine ⟨hform, ?_, ?_⟩
  · intro r hok
    rw [hform] at hok
    cases hl : stackLoop false [] data with
    | error er =>
      rw [hl] at hok
      cases hok
    | ok d' =>
      rw [hl] at hok
      injection hok with hok
      rw [← hok]
  · intro d b rest
    have hcons := stackLoop_cons false d b rest
    have haw : addrWidth false = 8 := rfl
    rw [haw] at hcons
    exact hcons

theorem c10_witness :
    analyze_executable ⟨none, some [9]⟩ =
      (match stackLoop false [] [9] with
        | Except.error er => Except.error er
        | Except.ok d' => Except.ok ⟨false, [], d'⟩) :=
  (c10_no_symtab_64bit_addresses ⟨none, some [9]⟩ [9] rfl rfl).1

end SSize
